import Mathlib

/-!
Verification of the breakpoint/process-control engine of a small ptrace-based
debugger (sources: `src/inferior.rs`, `src/debugger.rs`).

Modelling conventions:
* Child process memory is a byte map `Mem := Nat → Nat`; well-formed memories
  store bytes (`wfMem`).  The ptrace word primitives operate on 8-byte
  little-endian words, exactly as `ptrace::read`/`ptrace::write` do on x86-64.
* `usize` values are `Nat`s; where 64-bit wrap-around matters the theorems
  carry an explicit bound `< 2 ^ 64`.
* The `HashMap<usize, u8>` field `bp_to_original_byte` is an association list
  with newest-binding-first lookup, observationally equal to the hash map.
* Rust strings are lists of `Char`; the byte indices 1 and 3 taken by
  `parse_address` always fall on char boundaries because the skipped
  characters have just been matched against ASCII patterns.
-/

namespace SmallGdb

/-- Machine word size in bytes (`size_of::<usize>()` on the target). -/
def wordSize : Nat := 8

/-- The `usize` value of `-(size_of::<usize>() as isize) as usize`:
two's-complement of 8 in 64 bits. -/
def wordMask : Nat := 2 ^ 64 - 8

/-- `align_addr_to_word` from `src/inferior.rs`:
`addr & (-(size_of::<usize>() as isize) as usize)`. -/
def align_addr_to_word (addr : Nat) : Nat := addr &&& wordMask

/-- Child process memory, one `Nat` per byte address. -/
abbrev Mem := Nat → Nat

/-- A well-formed memory stores bytes. -/
def wfMem (m : Mem) : Prop := ∀ x, m x < 256

/-- The 8-byte little-endian word that `ptrace::read` returns at address `a`. -/
def readWord (m : Mem) (a : Nat) : Nat :=
  m a % 256 + m (a + 1) % 256 * 2 ^ 8 + m (a + 2) % 256 * 2 ^ 16 +
    m (a + 3) % 256 * 2 ^ 24 + m (a + 4) % 256 * 2 ^ 32 + m (a + 5) % 256 * 2 ^ 40 +
    m (a + 6) % 256 * 2 ^ 48 + m (a + 7) % 256 * 2 ^ 56

/-- Byte `k` of a word value. -/
def byteOf (w k : Nat) : Nat := (w >>> (8 * k)) &&& 255

/-- Effect of `ptrace::write` of word `w` at (aligned) address `a`:
the 8 bytes of the word are replaced, little-endian. -/
def writeWord (m : Mem) (a w : Nat) : Mem :=
  fun x => if a ≤ x ∧ x < a + wordSize then byteOf w (x - a) else m x

/-- `Inferior::write_byte` from `src/inferior.rs`: aligned read,
masked merge of the new byte, aligned write; returns the displaced byte. -/
def write_byte (m : Mem) (addr val : Nat) : Mem × Nat :=
  let aligned_addr := align_addr_to_word addr
  let byte_offset := addr - aligned_addr
  let word := readWord m aligned_addr
  let orig_byte := (word >>> (8 * byte_offset)) &&& 255
  let masked_word := word &&& ((2 ^ 64 - 1) ^^^ (255 <<< (8 * byte_offset)))
  let updated_word := masked_word ||| (val <<< (8 * byte_offset))
  (writeWord m aligned_addr updated_word, orig_byte)

/-! ### Breakpoint store, inferior state, and the continue protocol -/

/-- The `bp_to_original_byte : HashMap<usize, u8>` field, as an association
list with newest-binding-first lookup. -/
abbrev BpMap := List (Nat × Nat)

def bpLookup : BpMap → Nat → Option Nat
  | [], _ => none
  | p :: rest, a => if p.1 = a then some p.2 else bpLookup rest a

/-- `HashMap::insert`: the new binding shadows any older one. -/
def bpInsert (bp : BpMap) (k v : Nat) : BpMap := (k, v) :: bp

/-- `bp_to_original_byte.keys()`. -/
def bpKeys (bp : BpMap) : List Nat := bp.map Prod.fst

/-- The ptrace calls `continue_running` can issue, in program order.  `wait`
outcomes are classified separately (see `waitClassify`). -/
inductive PEvent where
  | writeMem (aligned : Nat)
  | setRegsE
  | stepE
  | contE
deriving DecidableEq

/-- The child registers the engine touches (`regs.rip`, `regs.rbp`). -/
structure Regs where
  rip : Nat
  rbp : Nat
deriving DecidableEq

/-- The traced child: its memory and registers. -/
structure InfState where
  mem : Mem
  regs : Regs

/-- One iteration of `install_break_points`: the loop pops addresses off the
back of the pending vector, so the caller passes the reversed list here. -/
def installLoop : Mem → BpMap → List Nat → Mem × BpMap × List PEvent
  | m, bp, [] => (m, bp, [])
  | m, bp, addr :: rest =>
    let w := write_byte m addr 0xcc
    let t := installLoop w.1 (bpInsert bp addr w.2) rest
    (t.1, t.2.1, PEvent.writeMem (align_addr_to_word addr) :: t.2.2)

/-- `Inferior::install_break_points`: `while let Some(addr) = break_points.pop()`
writes the trap byte and records the displaced byte; the pending vector is
drained back-to-front and left empty. -/
def install_break_points (m : Mem) (bp : BpMap) (pending : List Nat) :
    Mem × BpMap × List PEvent :=
  installLoop m bp pending.reverse

/-- `Inferior::continue_running`, lines 104-120 of `src/inferior.rs`.
`execStep` is the one machine instruction the kernel executes for
`ptrace::step`; the final `ptrace::cont` + `wait` pair is recorded as the
trailing `contE` event, and the classification of the eventual wait result is
modelled by `waitClassify`.  Returns (state before resuming, breakpoint map,
drained pending vector, ptrace events in order). -/
def continue_running (execStep : InfState → InfState) (s : InfState) (bp : BpMap)
    (pending : List Nat) : InfState × BpMap × List Nat × List PEvent :=
  let inst := install_break_points s.mem bp pending
  let cand := s.regs.rip - 1
  match bpLookup inst.2.1 cand with
  | some originByte =>
    let w1 := write_byte inst.1 cand originByte
    let s2 := execStep (InfState.mk w1.1 (Regs.mk (s.regs.rip - 1) s.regs.rbp))
    let w2 := write_byte s2.mem cand 0xcc
    (InfState.mk w2.1 s2.regs, inst.2.1, [],
      inst.2.2 ++ [PEvent.writeMem (align_addr_to_word cand), PEvent.setRegsE, PEvent.stepE,
        PEvent.writeMem (align_addr_to_word cand), PEvent.contE])
  | none => (InfState.mk inst.1 s.regs, inst.2.1, [], inst.2.2 ++ [PEvent.contE])

/-! ### C3: the breakpoint-store invariant -/

/-- The spec's store invariant relative to the pre-install image `image`:
memory is byte-well-formed, every installed address holds the trap byte with
the image's original byte recorded in the map, and every non-installed byte
still equals the image. -/
def BpInv (image m : Mem) (bp : BpMap) : Prop :=
  wfMem m ∧
  (∀ a b, bpLookup bp a = some b → b = image a ∧ m a = 0xcc) ∧
  (∀ x, bpLookup bp x = none → m x = image x)

/-! ### Wait classification, process creation, and the run command -/

/-- `nix::sys::wait::WaitStatus`, the raw kernel wait report. -/
inductive WaitStatus where
  | Exited (pid : Nat) (code : Int)
  | Signaled (pid : Nat) (sig : Nat) (coreDumped : Bool)
  | Stopped (pid : Nat) (sig : Nat)
  | PtraceEvent (pid : Nat) (sig : Nat) (ev : Int)
  | PtraceSyscall (pid : Nat)
  | Continued (pid : Nat)
  | StillAlive
deriving DecidableEq

/-- The POSIX number of `signal::SIGTRAP`. -/
def SIGTRAP : Nat := 5

/-- The `Status` enum of `src/inferior.rs`. -/
inductive Status where
  | Stopped (sig : Nat) (ip : Nat)
  | Exited (code : Int)
  | Signaled (sig : Nat)
deriving DecidableEq

/-- `Inferior::wait`, lines 92-102 of `src/inferior.rs`: classifies the raw
wait report; on a stop it reads the child's registers for the instruction
pointer.  `none` models the `panic!` on any other report.  (Kernel-level
`waitpid`/`getregs` failures are external and outside the model.) -/
def waitClassify (ws : WaitStatus) (regs : Regs) : Option Status :=
  match ws with
  | WaitStatus.Exited _ code => some (Status.Exited code)
  | WaitStatus.Signaled _ sig _ => some (Status.Signaled sig)
  | WaitStatus.Stopped _ sig => some (Status.Stopped sig regs.rip)
  | _ => none

/-- `Inferior::new`, lines 41-83 of `src/inferior.rs`.  `spawnOk` is whether
`Command::spawn` succeeded; the outer `none` models the
`.expect("spawn shit!")` panic on spawn failure.  On a `Stopped(_, SIGTRAP)`
initial report the pending breakpoints are installed into the fresh child
(`childMem`) starting from an empty map; every other initial report returns
`None` (inner `none`). -/
def inferiorNew (spawnOk : Bool) (ws : WaitStatus) (childMem : Mem) (pending : List Nat) :
    Option (Option (Mem × BpMap × List Nat)) :=
  if spawnOk then
    some (match ws with
      | WaitStatus.Stopped _ sig =>
        if sig = SIGTRAP then
          some ((install_break_points childMem [] pending).1,
            (install_break_points childMem [] pending).2.1, [])
        else none
      | _ => none)
  else none

/-- The run-command path of `Debugger::run`, lines 53-59 of
`src/debugger.rs`: a still-live prior inferior is killed and reaped, and the
pending breakpoint vector is *overwritten* by the list of addresses that were
installed in it (`self.break_points = inferior.kill()`); then a fresh
inferior is spawned with those addresses pending.  (The subsequent
`continue_running` at line 63 installs an already-drained pending vector, so
it does not change the installed map.)  Result: `none` for a panic, `some
(none, pending)` when `Inferior::new` failed, `some (some inf, [])` on
success. -/
def debuggerRunNew (prior : Option BpMap) (pending : List Nat) (spawnOk : Bool)
    (ws : WaitStatus) (childMem : Mem) :
    Option (Option (Mem × BpMap × List Nat) × List Nat) :=
  let pending1 := match prior with
    | some bp => bpKeys bp
    | none => pending
  match inferiorNew spawnOk ws childMem pending1 with
  | none => none
  | some none => some (none, pending1)
  | some (some inf) => some (some inf, inf.2.2)

/-- Projection: the installed map of the freshly spawned inferior, if any. -/
def newBpOf (r : Option (Option (Mem × BpMap × List Nat) × List Nat)) : Option BpMap :=
  match r with
  | some (some inf, _) => some inf.2.1
  | _ => none

/-! ### C7: the stack unwinder -/

/-- `print_function_line` from `src/inferior.rs`: resolves the source line and
the function name for `rip` via the DWARF query interface (the external
`DwarfData` collaborator, modelled by the two lookup functions); if either is
missing it returns an error (`Err(nix::Error::Sys(UnknownErrno))`). -/
def print_function_line (lineOf : Nat → Option Nat) (fnOf : Nat → Option String)
    (rip : Nat) : Except Unit String :=
  match lineOf rip with
  | some _ =>
    match fnOf rip with
    | some functionName => Except.ok functionName
    | none => Except.error ()
  | none => Except.error ()

/-- The loop of `Inferior::print_backtrace`: emit the frame at `rip`, stop
after the frame named "main", otherwise follow the saved frame-pointer
linkage (`rip := word at rbp + 8`, `rbp := word at rbp`).  `fuel` bounds the
unbounded source loop; every claim is stated with enough fuel. -/
def backtraceLoop (lineOf : Nat → Option Nat) (fnOf : Nat → Option String) (m : Mem) :
    Nat → Nat → Nat → Except Unit (List String)
  | 0, _, _ => Except.error ()
  | fuel + 1, rip, rbp =>
    match print_function_line lineOf fnOf rip with
    | Except.error e => Except.error e
    | Except.ok functionName =>
      if functionName = "main" then Except.ok [functionName]
      else
        match backtraceLoop lineOf fnOf m fuel (readWord m (rbp + 8)) (readWord m rbp) with
        | Except.error e => Except.error e
        | Except.ok rest => Except.ok (functionName :: rest)

/-- `Inferior::print_backtrace`: walk from the current `rip`/`rbp`. -/
def print_backtrace (lineOf : Nat → Option Nat) (fnOf : Nat → Option String) (m : Mem)
    (regs : Regs) (fuel : Nat) : Except Unit (List String) :=
  backtraceLoop lineOf fnOf m fuel regs.rip regs.rbp

/-! ### C8: breakpoint specification parsing -/

/-- `char::to_digit`-style digit value of a character (0-9, a-z, A-Z). -/
def charDigit (c : Char) : Option Nat :=
  if 48 ≤ c.toNat ∧ c.toNat ≤ 57 then some (c.toNat - 48)
  else if 97 ≤ c.toNat ∧ c.toNat ≤ 122 then some (c.toNat - 87)
  else if 65 ≤ c.toNat ∧ c.toNat ≤ 90 then some (c.toNat - 55)
  else none

/-- `char::to_digit(radix)`. -/
def toDigit (radix : Nat) (c : Char) : Option Nat :=
  match charDigit c with
  | some d => if d < radix then some d else none
  | none => none

/-- Digit-accumulation loop of `usize::from_str_radix` for a non-negative
number: checked multiply-add against the 64-bit `usize` bound. -/
def digitsPos (radix : Nat) : Nat → List Char → Option Nat
  | acc, [] => some acc
  | acc, c :: rest =>
    match toDigit radix c with
    | some d =>
      if acc * radix + d < 2 ^ 64 then digitsPos radix (acc * radix + d) rest else none
    | none => none

/-- The sign-negative branch of `from_str_radix` for an unsigned type: each
step is a `checked_sub` from 0, so every digit must be `0` for the value to
stay at 0; otherwise the parse fails. -/
def digitsNeg (radix : Nat) (cs : List Char) : Option Nat :=
  if cs.all fun c => toDigit radix c == some 0 then some 0 else none

/-- `usize::from_str_radix(s, radix)` (and `str::parse::<usize>`, which is
the radix-10 instance): optional leading sign, at least one digit, overflow
checked against 2^64. -/
def from_str_radix (radix : Nat) (cs : List Char) : Option Nat :=
  match cs with
  | [] => none
  | c :: rest =>
    if c = '+' then
      match rest with
      | [] => none
      | _ => digitsPos radix 0 rest
    else if c = '-' then
      match rest with
      | [] => none
      | _ => digitsNeg radix rest
    else digitsPos radix 0 (c :: rest)

/-- The `ParseAddressRes` enum of `src/debugger.rs`. -/
inductive ParseAddressRes where
  | Addr (a : Nat)
  | LineNumber (n : Nat)
  | FunctionName (name : List Char)
  | FalseAddr
deriving DecidableEq

/-- `parse_address` from `src/debugger.rs`: a leading `*` marks a raw hex
address whose remainder may carry a case-insensitive `0x` prefix (the source
lowercases `addr[1..]` before testing `starts_with("0x")` and then slices
`addr[3..]`); without `*`, a string parsing as `usize` is a line number and
anything else is a function name. -/
def parse_address (addr : List Char) : ParseAddressRes :=
  match addr with
  | '*' :: rest =>
    let hexPart :=
      match rest.map Char.toLower with
      | '0' :: 'x' :: _ => rest.drop 2
      | _ => rest
    match from_str_radix 16 hexPart with
    | some a => ParseAddressRes.Addr a
    | none => ParseAddressRes.FalseAddr
  | _ =>
    match from_str_radix 10 addr with
    | some n => ParseAddressRes.LineNumber n
    | none => ParseAddressRes.FunctionName addr

/-! ### Bit-level facts about the word mask and byte extraction -/

theorem align_eq_div_mul (addr : Nat) (h : addr < 2 ^ 64) :
    align_addr_to_word addr = 8 * (addr / 8) := by
  have hmask : wordMask = (2 ^ 61 - 1) <<< 3 := by decide
  have hmul : 8 * (addr / 8) = (addr >>> 3) <<< 3 := by
    rw [Nat.shiftRight_eq_div_pow, Nat.shiftLeft_eq]
    ring
  apply Nat.eq_of_testBit_eq
  intro i
  rw [align_addr_to_word, hmask, hmul, Nat.testBit_and, Nat.testBit_shiftLeft,
    Nat.testBit_shiftLeft, Nat.testBit_two_pow_sub_one]
  by_cases h3 : 3 ≤ i
  · rw [Nat.testBit_shiftRight]
    have hi : 3 + (i - 3) = i := by omega
    rw [hi]
    by_cases h64 : i < 64
    · have : i - 3 < 61 := by omega
      simp [h3, this]
    · have hbit : addr.testBit i = false :=
        Nat.testBit_lt_two_pow (Nat.lt_of_lt_of_le h (Nat.pow_le_pow_right (by omega) (by omega)))
      simp [hbit]
  · simp [h3]

theorem byte_offset_eq (addr : Nat) (h : addr < 2 ^ 64) :
    addr - align_addr_to_word addr = addr % 8 := by
  rw [align_eq_div_mul addr h]
  omega

theorem byte_offset_lt (addr : Nat) (h : addr < 2 ^ 64) :
    addr - align_addr_to_word addr < wordSize := by
  rw [byte_offset_eq addr h, wordSize]
  omega

theorem align_le (addr : Nat) (h : addr < 2 ^ 64) : align_addr_to_word addr ≤ addr := by
  rw [align_eq_div_mul addr h]
  omega

theorem byteOf_eq_div_mod (w k : Nat) : byteOf w k = w / 2 ^ (8 * k) % 256 := by
  have h255 : (255 : Nat) = 2 ^ 8 - 1 := by decide
  rw [byteOf, h255, Nat.and_pow_two_sub_one_eq_mod, Nat.shiftRight_eq_div_pow]

theorem byteOf_lt (w k : Nat) : byteOf w k < 256 := by
  rw [byteOf_eq_div_mod]
  omega

theorem byteOf_or (x y k : Nat) : byteOf (x ||| y) k = byteOf x k ||| byteOf y k := by
  apply Nat.eq_of_testBit_eq
  intro j
  simp only [byteOf, Nat.testBit_and, Nat.testBit_or, Nat.testBit_shiftRight]
  cases x.testBit (8 * k + j) <;> cases y.testBit (8 * k + j) <;>
    cases (255 : Nat).testBit j <;> rfl

theorem byteOf_and (x y k : Nat) : byteOf (x &&& y) k = byteOf x k &&& byteOf y k := by
  apply Nat.eq_of_testBit_eq
  intro j
  simp only [byteOf, Nat.testBit_and, Nat.testBit_shiftRight]
  cases x.testBit (8 * k + j) <;> cases y.testBit (8 * k + j) <;>
    cases (255 : Nat).testBit j <;> rfl

theorem byteOf_mask (o k : Nat) (ho : o < 8) (hk : k < 8) :
    byteOf ((2 ^ 64 - 1) ^^^ (255 <<< (8 * o))) k = if k = o then 0 else 255 := by
  interval_cases o <;> interval_cases k <;> decide

theorem byteOf_shifted_val (v o k : Nat) (hv : v < 256) (ho : o < 8) (hk : k < 8) :
    byteOf (v <<< (8 * o)) k = if k = o then v else 0 := by
  rw [byteOf_eq_div_mod, Nat.shiftLeft_eq]
  interval_cases o <;> interval_cases k <;> simp <;> omega

theorem byteOf_byteOf (w k : Nat) : byteOf (byteOf w k) 0 = byteOf w k := by
  rw [byteOf_eq_div_mod (byteOf w k) 0]
  simp [Nat.mod_eq_of_lt (byteOf_lt w k)]

theorem byteOf_readWord (m : Mem) (a k : Nat) (hk : k < 8) :
    byteOf (readWord m a) k = m (a + k) % 256 := by
  rw [byteOf_eq_div_mod, readWord]
  have h0 : m a % 256 < 256 := Nat.mod_lt _ (by omega)
  have h1 : m (a + 1) % 256 < 256 := Nat.mod_lt _ (by omega)
  have h2 : m (a + 2) % 256 < 256 := Nat.mod_lt _ (by omega)
  have h3 : m (a + 3) % 256 < 256 := Nat.mod_lt _ (by omega)
  have h4 : m (a + 4) % 256 < 256 := Nat.mod_lt _ (by omega)
  have h5 : m (a + 5) % 256 < 256 := Nat.mod_lt _ (by omega)
  have h6 : m (a + 6) % 256 < 256 := Nat.mod_lt _ (by omega)
  have h7 : m (a + 7) % 256 < 256 := Nat.mod_lt _ (by omega)
  interval_cases k <;> (try simp only [Nat.add_zero]) <;> omega

theorem byteOf_and_255 (x : Nat) (hx : x < 256) : x &&& 255 = x := by
  have h255 : (255 : Nat) = 2 ^ 8 - 1 := by decide
  rw [h255]
  exact Nat.and_pow_two_sub_one_of_lt_two_pow hx

/-- Byte `k` of the merged word built inside `write_byte`. -/
theorem byteOf_updated (word val o k : Nat) (hv : val < 256) (ho : o < 8) (hk : k < 8) :
    byteOf ((word &&& ((2 ^ 64 - 1) ^^^ (255 <<< (8 * o)))) ||| (val <<< (8 * o))) k =
      if k = o then val else byteOf word k := by
  rw [byteOf_or, byteOf_and, byteOf_mask o k ho hk, byteOf_shifted_val val o k hv ho hk]
  by_cases hko : k = o
  · simp [hko]
  · simp only [hko, if_false, Nat.or_zero]
    exact byteOf_and_255 _ (byteOf_lt word k)

/-! ### Characterization of `write_byte`: it changes exactly the byte at `addr`
and returns the byte previously stored there. -/

theorem write_byte_self (m : Mem) (addr val : Nat) (h : addr < 2 ^ 64) (hv : val < 256) :
    (write_byte m addr val).1 addr = val := by
  have hle := align_le addr h
  have ho := byte_offset_lt addr h
  simp only [write_byte, writeWord, wordSize] at ho ⊢
  rw [if_pos ⟨hle, by omega⟩]
  rw [byteOf_updated _ _ _ _ hv (by omega) (by omega)]
  simp

theorem write_byte_other (m : Mem) (addr val : Nat) (h : addr < 2 ^ 64) (hv : val < 256)
    (hwf : wfMem m) : ∀ x, x ≠ addr → (write_byte m addr val).1 x = m x := by
  intro x hx
  have hle := align_le addr h
  have ho := byte_offset_lt addr h
  simp only [write_byte, writeWord, wordSize] at ho ⊢
  by_cases hin : align_addr_to_word addr ≤ x ∧ x < align_addr_to_word addr + 8
  · rw [if_pos hin]
    rw [byteOf_updated _ _ _ _ hv (by omega) (by omega)]
    have hne : ¬ (x - align_addr_to_word addr = addr - align_addr_to_word addr) := by omega
    rw [if_neg hne, byteOf_readWord m _ _ (by omega)]
    have hxa : align_addr_to_word addr + (x - align_addr_to_word addr) = x := by omega
    rw [hxa, Nat.mod_eq_of_lt (hwf x)]
  · rw [if_neg hin]

theorem write_byte_ret (m : Mem) (addr val : Nat) (h : addr < 2 ^ 64) :
    (write_byte m addr val).2 = m addr % 256 := by
  have hle := align_le addr h
  have ho := byte_offset_lt addr h
  simp only [write_byte, wordSize] at ho ⊢
  have : (readWord m (align_addr_to_word addr) >>> (8 * (addr - align_addr_to_word addr))) &&& 255 =
      byteOf (readWord m (align_addr_to_word addr)) (addr - align_addr_to_word addr) := rfl
  rw [this, byteOf_readWord m _ _ (by omega)]
  have hxa : align_addr_to_word addr + (addr - align_addr_to_word addr) = addr := by omega
  rw [hxa]

theorem write_byte_wf (m : Mem) (addr val : Nat) (hwf : wfMem m) :
    wfMem (write_byte m addr val).1 := by
  intro x
  simp only [write_byte, writeWord]
  by_cases hin : align_addr_to_word addr ≤ x ∧ x < align_addr_to_word addr + wordSize
  · rw [if_pos hin]
    exact byteOf_lt _ _
  · rw [if_neg hin]
    exact hwf x

/-- C2: for every address `A` (aligned or not) and every prior memory state,
installing a breakpoint at `A` (writing the trap byte `0xcc` and recording the
returned original byte) followed immediately by restoring `A` (writing the
recorded byte back) leaves the word containing `A` — indeed all of memory —
byte-for-byte identical to its value before the install. -/
theorem c2_install_restore_roundtrip (m : Mem) (addr : Nat) (hwf : wfMem m)
    (h : addr < 2 ^ 64) :
    (∀ i, i < wordSize →
      (write_byte (write_byte m addr 0xcc).1 addr (write_byte m addr 0xcc).2).1
          (align_addr_to_word addr + i) = m (align_addr_to_word addr + i)) ∧
    (∀ x,
      (write_byte (write_byte m addr 0xcc).1 addr (write_byte m addr 0xcc).2).1 x = m x) := by
  have hret : (write_byte m addr 0xcc).2 = m addr % 256 := write_byte_ret m addr 0xcc h
  have hv : m addr % 256 < 256 := Nat.mod_lt _ (by omega)
  have hwf1 : wfMem (write_byte m addr 0xcc).1 := write_byte_wf m addr 0xcc hwf
  have main : ∀ x,
      (write_byte (write_byte m addr 0xcc).1 addr (write_byte m addr 0xcc).2).1 x = m x := by
    intro x
    by_cases hx : x = addr
    · subst hx
      rw [hret, write_byte_self _ _ _ h hv, Nat.mod_eq_of_lt (hwf x)]
    · rw [hret, write_byte_other _ _ _ h hv hwf1 x hx,
        write_byte_other _ _ _ h (by omega) hwf x hx]
  exact ⟨fun i _ => main _, main⟩

/-- Witness for C2 at a concrete unaligned address and memory. -/
theorem c2_install_restore_roundtrip_witness :
    (write_byte (write_byte (fun _ => 144) 3 0xcc).1 3 (write_byte (fun _ => 144) 3 0xcc).2).1 3 =
      144 :=
  (c2_install_restore_roundtrip (fun _ => 144) 3 (by intro x; show (144 : Nat) < 256; decide) (by decide)).2 3

/-- C10: `write_byte` modifies only the single byte at `addr`: the byte offset
within the containing word is below the word size, the returned value is the
byte previously at `addr`, the byte at `addr` becomes `val`, and every other
byte of memory is unchanged. -/
theorem c10_write_byte_single_byte (m : Mem) (addr val : Nat) (hwf : wfMem m)
    (h : addr < 2 ^ 64) (hv : val < 256) :
    addr - align_addr_to_word addr < wordSize ∧
    (write_byte m addr val).2 = m addr ∧
    (write_byte m addr val).1 addr = val ∧
    ∀ x, x ≠ addr → (write_byte m addr val).1 x = m x :=
  ⟨byte_offset_lt addr h,
   by rw [write_byte_ret m addr val h, Nat.mod_eq_of_lt (hwf addr)],
   write_byte_self m addr val h hv,
   write_byte_other m addr val h hv hwf⟩

/-- Witness for C10 at a concrete input. -/
theorem c10_write_byte_single_byte_witness :
    (write_byte (fun _ => 100) 5 7).2 = 100 ∧ (write_byte (fun _ => 100) 5 7).1 5 = 7 ∧
      (write_byte (fun _ => 100) 5 7).1 6 = 100 :=
  ⟨(c10_write_byte_single_byte (fun _ => 100) 5 7 (by intro x; show (100 : Nat) < 256; decide) (by decide)
      (by decide)).2.1,
   (c10_write_byte_single_byte (fun _ => 100) 5 7 (by intro x; show (100 : Nat) < 256; decide) (by decide)
      (by decide)).2.2.1,
   (c10_write_byte_single_byte (fun _ => 100) 5 7 (by intro x; show (100 : Nat) < 256; decide) (by decide)
      (by decide)).2.2.2 6 (by decide)⟩

/-! ### Facts about the install loop -/

theorem installLoop_lookup_of_not_mem (a : Nat) :
    ∀ (l : List Nat) (m : Mem) (bp : BpMap), a ∉ l →
      bpLookup (installLoop m bp l).2.1 a = bpLookup bp a := by
  intro l
  induction l with
  | nil => intro m bp _; rfl
  | cons addr rest ih =>
    intro m bp ha
    simp only [installLoop]
    rw [ih _ _ (by intro hm; exact ha (List.mem_cons_of_mem _ hm))]
    simp only [bpInsert, bpLookup]
    rw [if_neg (by intro he; exact ha (he ▸ List.mem_cons_self addr rest))]

theorem installLoop_mem_of_not_mem (a : Nat) :
    ∀ (l : List Nat) (m : Mem) (bp : BpMap), wfMem m → (∀ b ∈ l, b < 2 ^ 64) → a ∉ l →
      (installLoop m bp l).1 a = m a := by
  intro l
  induction l with
  | nil => intro m bp _ _ _; rfl
  | cons addr rest ih =>
    intro m bp hwf h64 ha
    simp only [installLoop]
    rw [ih _ _ (write_byte_wf m addr 0xcc hwf)
        (fun b hb => h64 b (List.mem_cons_of_mem _ hb))
        (by intro hm; exact ha (List.mem_cons_of_mem _ hm))]
    exact write_byte_other m addr _ (h64 addr (List.mem_cons_self addr rest)) (by decide) hwf a
      (by intro he; exact ha (he ▸ List.mem_cons_self addr rest))

theorem installLoop_wf :
    ∀ (l : List Nat) (m : Mem) (bp : BpMap), wfMem m → wfMem (installLoop m bp l).1 := by
  intro l
  induction l with
  | nil => intro m bp hwf; exact hwf
  | cons addr rest ih => intro m bp hwf; exact ih _ _ (write_byte_wf m addr 0xcc hwf)

theorem installLoop_count_stepE :
    ∀ (l : List Nat) (m : Mem) (bp : BpMap),
      ((installLoop m bp l).2.2).count PEvent.stepE = 0 := by
  intro l
  induction l with
  | nil => intro m bp; rfl
  | cons addr rest ih =>
    intro m bp
    simp only [installLoop, List.count_cons, ih]
    rfl

theorem installLoop_keys :
    ∀ (l : List Nat) (m : Mem) (bp : BpMap) (a : Nat), a ∈ l ∨ a ∈ bpKeys bp →
      a ∈ bpKeys (installLoop m bp l).2.1 := by
  intro l
  induction l with
  | nil =>
    intro m bp a ha
    rcases ha with h | h
    · cases h
    · exact h
  | cons addr rest ih =>
    intro m bp a ha
    simp only [installLoop]
    apply ih
    rcases ha with h | h
    · rcases List.mem_cons.mp h with he | hm
      · right
        subst he
        exact List.mem_cons_self _ _
      · left
        exact hm
    · right
      exact List.mem_cons_of_mem _ h

/-- C9: restoring an address with no installed breakpoint is a no-op: when the
candidate address (instruction pointer minus one) is not in the installed map
(and no new breakpoints are pending), `continue_running` performs no memory
write and no register modification before resuming — it just issues
`ptrace::cont`, leaving memory, registers, and the map untouched.  (In the
model ptrace calls cannot fail, matching the claim that the no-op path never
errors.) -/
theorem c9_restore_not_installed_noop (execStep : InfState → InfState) (s : InfState)
    (bp : BpMap) (h : bpLookup bp (s.regs.rip - 1) = none) :
    continue_running execStep s bp [] = (s, bp, [], [PEvent.contE]) := by
  simp [continue_running, install_break_points, installLoop, h]

/-- Witness for C9 at a concrete state. -/
theorem c9_restore_not_installed_noop_witness :
    continue_running id (InfState.mk (fun _ => 0) (Regs.mk 5 0)) [] [] =
      (InfState.mk (fun _ => 0) (Regs.mk 5 0), [], [], [PEvent.contE]) :=
  c9_restore_not_installed_noop id (InfState.mk (fun _ => 0) (Regs.mk 5 0)) [] rfl

/-- C1: for a process stopped at a breakpoint installed at `A` (reported
instruction pointer `A + 1`, `A` in the installed map with recorded byte
`originByte`), `continue_running`:
(i) hands the single step a state in which the original byte is restored at
`A` and the instruction pointer is rewound to `A`, so the real instruction at
`A` is the one that executes;
(ii) performs exactly the sequence install / restore-write / setregs / one
single step / re-patch-write / resume;
(iii) leaves the trap byte re-armed at `A` afterwards;
(iv) keeps `A` in the installed map with its recorded byte;
(v) issues exactly one single step, so the instruction runs exactly once; and
(vi) ends by resuming the child. -/
theorem c1_step_over (execStep : InfState → InfState) (s : InfState) (bp : BpMap)
    (pending : List Nat) (A originByte : Nat)
    (hA : A < 2 ^ 64) (hApend : A ∉ pending) (hrip : s.regs.rip = A + 1)
    (hbp : bpLookup bp A = some originByte) (horig : originByte < 256) :
    (write_byte (install_break_points s.mem bp pending).1 A originByte).1 A = originByte ∧
    continue_running execStep s bp pending =
      (InfState.mk
        (write_byte
          (execStep (InfState.mk
            (write_byte (install_break_points s.mem bp pending).1 A originByte).1
            (Regs.mk A s.regs.rbp))).mem A 0xcc).1
        (execStep (InfState.mk
          (write_byte (install_break_points s.mem bp pending).1 A originByte).1
          (Regs.mk A s.regs.rbp))).regs,
       (install_break_points s.mem bp pending).2.1, [],
       (install_break_points s.mem bp pending).2.2 ++
         [PEvent.writeMem (align_addr_to_word A), PEvent.setRegsE, PEvent.stepE,
          PEvent.writeMem (align_addr_to_word A), PEvent.contE]) ∧
    (continue_running execStep s bp pending).1.mem A = 0xcc ∧
    bpLookup (continue_running execStep s bp pending).2.1 A = some originByte ∧
    ((continue_running execStep s bp pending).2.2.2).count PEvent.stepE = 1 ∧
    ((continue_running execStep s bp pending).2.2.2).getLast? = some PEvent.contE := by
  have hcand : s.regs.rip - 1 = A := by omega
  have hlk : bpLookup (install_break_points s.mem bp pending).2.1 A = some originByte := by
    rw [install_break_points, installLoop_lookup_of_not_mem A _ _ _
      (by simpa using hApend)]
    exact hbp
  have hrun : continue_running execStep s bp pending =
      (InfState.mk
        (write_byte
          (execStep (InfState.mk
            (write_byte (install_break_points s.mem bp pending).1 A originByte).1
            (Regs.mk A s.regs.rbp))).mem A 0xcc).1
        (execStep (InfState.mk
          (write_byte (install_break_points s.mem bp pending).1 A originByte).1
          (Regs.mk A s.regs.rbp))).regs,
       (install_break_points s.mem bp pending).2.1, [],
       (install_break_points s.mem bp pending).2.2 ++
         [PEvent.writeMem (align_addr_to_word A), PEvent.setRegsE, PEvent.stepE,
          PEvent.writeMem (align_addr_to_word A), PEvent.contE]) := by
    simp only [continue_running, hcand, hlk]
  refine ⟨write_byte_self _ A originByte hA horig, hrun, ?_, ?_, ?_, ?_⟩
  · rw [hrun]
    exact write_byte_self _ A 0xcc hA (by decide)
  · rw [hrun]
    exact hlk
  · rw [hrun]
    simp only [List.count_append, install_break_points, installLoop_count_stepE]
    rfl
  · rw [hrun]
    rw [show [PEvent.writeMem (align_addr_to_word A), PEvent.setRegsE, PEvent.stepE,
        PEvent.writeMem (align_addr_to_word A), PEvent.contE] =
      [PEvent.writeMem (align_addr_to_word A), PEvent.setRegsE, PEvent.stepE,
        PEvent.writeMem (align_addr_to_word A)] ++ [PEvent.contE] from rfl,
      ← List.append_assoc, List.getLast?_concat]

/-- Witness for C1: a process stopped at `rip = 9` with a breakpoint recorded
at address `8`. -/
theorem c1_step_over_witness :
    (continue_running id (InfState.mk (fun _ => 144) (Regs.mk 9 0)) [(8, 144)] []).1.mem 8 =
        0xcc ∧
      bpLookup
        (continue_running id (InfState.mk (fun _ => 144) (Regs.mk 9 0)) [(8, 144)] []).2.1 8 =
        some 144 ∧
      ((continue_running id (InfState.mk (fun _ => 144) (Regs.mk 9 0)) [(8, 144)]
          []).2.2.2).count PEvent.stepE = 1 :=
  ⟨(c1_step_over id (InfState.mk (fun _ => 144) (Regs.mk 9 0)) [(8, 144)] [] 8 144
      (by decide) (by simp) rfl rfl (by decide)).2.2.1,
   (c1_step_over id (InfState.mk (fun _ => 144) (Regs.mk 9 0)) [(8, 144)] [] 8 144
      (by decide) (by simp) rfl rfl (by decide)).2.2.2.1,
   (c1_step_over id (InfState.mk (fun _ => 144) (Regs.mk 9 0)) [(8, 144)] [] 8 144
      (by decide) (by simp) rfl rfl (by decide)).2.2.2.2.1⟩

/-- C3 counterexample: installing address 0 twice (its address placed back in
the pending vector while already installed) records the trap byte `0xcc`, not
the image's original byte `144`, as the "original" byte — refuting the claim
for sequences that re-install an installed address. -/
theorem c3_counterexample :
    bpLookup (install_break_points
        (install_break_points (fun _ => 144) [] [0]).1
        (install_break_points (fun _ => 144) [] [0]).2.1 [0]).2.1 0 = some 0xcc ∧
      ((fun _ => 144 : Mem) 0 = 144 ∧ (0xcc : Nat) ≠ 144) := by
  refine ⟨by decide, rfl, by decide⟩

theorem installLoop_inv (image : Mem) :
    ∀ (l : List Nat) (m : Mem) (bp : BpMap),
      BpInv image m bp → (∀ a ∈ l, a < 2 ^ 64) → (∀ a ∈ l, bpLookup bp a = none) →
      l.Nodup → BpInv image (installLoop m bp l).1 (installLoop m bp l).2.1 := by
  intro l
  induction l with
  | nil => intro m bp hinv _ _ _; exact hinv
  | cons addr rest ih =>
    intro m bp hinv h64 hfresh hnd
    obtain ⟨hwf, hsome, hnone⟩ := hinv
    have haddr64 : addr < 2 ^ 64 := h64 addr (List.mem_cons_self addr rest)
    have hlkaddr : bpLookup bp addr = none := hfresh addr (List.mem_cons_self addr rest)
    have hret : (write_byte m addr 0xcc).2 = image addr := by
      rw [write_byte_ret m addr 0xcc haddr64, Nat.mod_eq_of_lt (hwf addr), hnone addr hlkaddr]
    simp only [installLoop]
    apply ih
    · refine ⟨write_byte_wf m addr 0xcc hwf, ?_, ?_⟩
      · intro a b hab
        simp only [bpInsert, bpLookup] at hab
        by_cases haa : addr = a
        · subst haa
          rw [if_pos rfl] at hab
          cases hab
          exact ⟨hret, write_byte_self m addr 0xcc haddr64 (by decide)⟩
        · rw [if_neg haa] at hab
          obtain ⟨hb, hm⟩ := hsome a b hab
          exact ⟨hb, by
            rw [write_byte_other m addr 0xcc haddr64 (by decide) hwf a
              (fun he => haa he.symm)]
            exact hm⟩
      · intro x hx
        simp only [bpInsert, bpLookup] at hx
        by_cases hax : addr = x
        · rw [if_pos hax] at hx
          cases hx
        · rw [if_neg hax] at hx
          rw [write_byte_other m addr 0xcc haddr64 (by decide) hwf x (fun he => hax he.symm)]
          exact hnone x hx
    · intro a ha
      exact h64 a (List.mem_cons_of_mem _ ha)
    · intro a ha
      simp only [bpInsert, bpLookup]
      rw [if_neg (fun he => (List.nodup_cons.mp hnd).1 (by rw [he]; exact ha))]
      exact hfresh a (List.mem_cons_of_mem _ ha)
    · exact (List.nodup_cons.mp hnd).2

/-- C3 amended: re-installing an already-installed address records the trap
byte as "original" (see `c3_counterexample`), so the invariant holds for
sequences of installs at fresh addresses: starting from a state satisfying
the store invariant (e.g. a fresh image with an empty map), installing any
duplicate-free batch of not-yet-installed addresses preserves it — every
installed address holds exactly the trap byte `0xcc` in place of the recorded
image byte, and every other byte of memory equals the image.  Since the
conclusion is again the invariant, this covers any sequence of such install
batches. -/
theorem c3_amended_install_invariant (image m : Mem) (bp : BpMap) (pending : List Nat)
    (hinv : BpInv image m bp) (h64 : ∀ a ∈ pending, a < 2 ^ 64)
    (hfresh : ∀ a ∈ pending, bpLookup bp a = none) (hnd : pending.Nodup) :
    BpInv image (install_break_points m bp pending).1
      (install_break_points m bp pending).2.1 := by
  apply installLoop_inv image pending.reverse m bp hinv
  · intro a ha
    exact h64 a (List.mem_reverse.mp ha)
  · intro a ha
    exact hfresh a (List.mem_reverse.mp ha)
  · exact List.nodup_reverse.mpr hnd

/-- Witness for the amended C3 at a concrete fresh install. -/
theorem c3_amended_install_invariant_witness :
    BpInv (fun _ => 144) (install_break_points (fun _ => 144) [] [0, 9]).1
      (install_break_points (fun _ => 144) [] [0, 9]).2.1 :=
  c3_amended_install_invariant (fun _ => 144) (fun _ => 144) [] [0, 9]
    ⟨by intro x; show (144 : Nat) < 256; decide,
      ⟨(by intro a b hab; cases hab), fun x _ => rfl⟩⟩
    (by intro a ha; fin_cases ha <;> decide) (fun a _ => rfl) (by decide)

/-- C5: a child exiting with code `c` yields `Exited c`; a child killed by a
fatal signal `s` yields `Signaled s`; a child stopped by a signal yields
`Stopped sig ip` with `ip` the instruction pointer read from the child's
registers; every other kernel report (`PtraceEvent`, `PtraceSyscall`,
`Continued`, `StillAlive`) aborts (`none`, the model of the `panic!`) rather
than being misclassified. -/
theorem c5_wait_classification (regs : Regs) (pid : Nat) (code ev : Int) (sig : Nat)
    (core : Bool) :
    waitClassify (WaitStatus.Exited pid code) regs = some (Status.Exited code) ∧
    waitClassify (WaitStatus.Signaled pid sig core) regs = some (Status.Signaled sig) ∧
    waitClassify (WaitStatus.Stopped pid sig) regs = some (Status.Stopped sig regs.rip) ∧
    waitClassify (WaitStatus.PtraceEvent pid sig ev) regs = none ∧
    waitClassify (WaitStatus.PtraceSyscall pid) regs = none ∧
    waitClassify (WaitStatus.Continued pid) regs = none ∧
    waitClassify WaitStatus.StillAlive regs = none :=
  ⟨rfl, rfl, rfl, rfl, rfl, rfl, rfl⟩

/-- C6: the initial-stop classification is as claimed — with a successful
spawn, creation yields a process handle if and only if the initial wait
reports a stop with `SIGTRAP` — but on a non-spawnable executable the code
panics (`.expect("spawn shit!")`, modelled by the outer `none`), aborting the
whole debugger instead of reporting a launch error and returning no handle as
the claim (and the function's own doc comment) state. -/
theorem c6_new_classification :
    inferiorNew false (WaitStatus.Stopped 1 SIGTRAP) (fun _ => 0) [] = none ∧
    ∀ (ws : WaitStatus) (childMem : Mem) (pending : List Nat),
      (∃ r, inferiorNew true ws childMem pending = some (some r)) ↔
        ∃ pid, ws = WaitStatus.Stopped pid SIGTRAP := by
  refine ⟨rfl, ?_⟩
  intro ws childMem pending
  constructor
  · intro hr
    obtain ⟨r, hr⟩ := hr
    cases ws with
    | Stopped pid sig =>
      by_cases hs : sig = SIGTRAP
      · exact ⟨pid, by rw [hs]⟩
      · simp [inferiorNew, hs] at hr
    | Exited pid code => simp [inferiorNew] at hr
    | Signaled pid sig core => simp [inferiorNew] at hr
    | PtraceEvent pid sig ev => simp [inferiorNew] at hr
    | PtraceSyscall pid => simp [inferiorNew] at hr
    | Continued pid => simp [inferiorNew] at hr
    | StillAlive => simp [inferiorNew] at hr
  · intro hws
    obtain ⟨pid, hws⟩ := hws
    subst hws
    exact ⟨((install_break_points childMem [] pending).1,
      (install_break_points childMem [] pending).2.1, []), by simp [inferiorNew]⟩

/-- C4 counterexample: with a prior inferior whose installed map is
`{4096 ↦ 144}` and a pending-but-not-yet-installed breakpoint at `5000`,
re-running installs only `4096` in the new process: the kill result
*replaces* the pending set (`self.break_points = inferior.kill()`), so the
pending address `5000` is dropped, refuting "every breakpoint address — both
those installed in the old process and those pending but not yet installed at
the time of the kill — is re-installed". -/
theorem c4_counterexample :
    (newBpOf (debuggerRunNew (some [(4096, 144)]) [5000] true
        (WaitStatus.Stopped 7 SIGTRAP) (fun _ => 144))).map bpKeys = some [4096] ∧
      ¬ (5000 : Nat) ∈ [4096] ∧ (5000 : Nat) ∈ [5000] := by
  refine ⟨by decide, by decide, by decide⟩

/-- C4 amended: on a re-run that spawns successfully, every address installed
in the killed prior inferior is re-installed (is in the installed map of the
new process); pending-but-not-yet-installed addresses at the time of the kill
are discarded, because the kill result overwrites the pending set. -/
theorem c4_amended_reinstall (priorBp : BpMap) (pending : List Nat) (pid : Nat)
    (childMem : Mem) (newInf : Option (Mem × BpMap × List Nat) × List Nat)
    (hrun : debuggerRunNew (some priorBp) pending true (WaitStatus.Stopped pid SIGTRAP)
      childMem = some newInf) :
    ∃ inf, newInf.1 = some inf ∧ ∀ a, a ∈ bpKeys priorBp → a ∈ bpKeys inf.2.1 := by
  simp only [debuggerRunNew, inferiorNew, if_pos, SIGTRAP] at hrun
  injection hrun with h
  subst h
  refine ⟨_, rfl, ?_⟩
  intro a ha
  simp only [install_break_points]
  exact installLoop_keys _ _ _ _ (Or.inl (List.mem_reverse.mpr ha))

/-- Witness for the amended C4 at a concrete prior map. -/
theorem c4_amended_reinstall_witness :
    (4096 : Nat) ∈ bpKeys (install_break_points (fun _ => 144) [] (bpKeys [(4096, 144)])).2.1 := by
  obtain ⟨inf, hinf, hmem⟩ := c4_amended_reinstall [(4096, 144)] [5000] 7 (fun _ => 144)
    (some ((install_break_points (fun _ => 144) [] (bpKeys [(4096, 144)])).1,
      (install_break_points (fun _ => 144) [] (bpKeys [(4096, 144)])).2.1, []), []) rfl
  injection hinf with he
  rw [← he] at hmem
  exact hmem 4096 (by decide)

/-- C7: (i) for a call chain `main -> f -> g` stopped inside `g`, with all
three frames resolving to names and lines, the unwinder emits exactly
`[g, f, main]` innermost-first and stops right after the `main` frame — the
hypotheses constrain only the two frame-pointer records below `main`, so the
result is independent of any bogus linkage past `main`'s frame; (ii) if a
frame's instruction pointer resolves to no source line or no function name,
the walk stops with an error. -/
theorem c7_backtrace :
    (∀ (lineOf : Nat → Option Nat) (fnOf : Nat → Option String) (m : Mem) (regs : Regs)
      (fuel : Nat) (g f : String) (l0 l1 l2 rip1 rip2 rbp1 : Nat),
      3 ≤ fuel →
      lineOf regs.rip = some l0 → fnOf regs.rip = some g → g ≠ "main" →
      readWord m (regs.rbp + 8) = rip1 → readWord m regs.rbp = rbp1 →
      lineOf rip1 = some l1 → fnOf rip1 = some f → f ≠ "main" →
      readWord m (rbp1 + 8) = rip2 →
      lineOf rip2 = some l2 → fnOf rip2 = some "main" →
      print_backtrace lineOf fnOf m regs fuel = Except.ok [g, f, "main"]) ∧
    (∀ (lineOf : Nat → Option Nat) (fnOf : Nat → Option String) (m : Mem)
      (fuel rip rbp : Nat), lineOf rip = none ∨ fnOf rip = none →
      backtraceLoop lineOf fnOf m (fuel + 1) rip rbp = Except.error ()) := by
  constructor
  · intro lineOf fnOf m regs fuel g f l0 l1 l2 rip1 rip2 rbp1 hfuel hl0 hf0 hg hm1 hb1 hl1
      hf1 hf hm2 hl2 hf2
    obtain ⟨k, rfl⟩ : ∃ k, fuel = k + 1 + 1 + 1 := ⟨fuel - 3, by omega⟩
    simp only [print_backtrace, backtraceLoop, print_function_line, hl0, hf0, hg, hm1, hb1,
      hl1, hf1, hf, hm2, hl2, hf2, if_neg, if_pos, reduceIte]
  · intro lineOf fnOf m fuel rip rbp h
    rcases h with h | h
    · simp only [backtraceLoop, print_function_line, h]
    · cases hln : lineOf rip <;>
        simp only [backtraceLoop, print_function_line, hln, h]

/-- Witness for C7: a concrete three-frame stack (`g` at 100, `f` at 200,
`main` at 300) and a concrete unresolvable frame. -/
theorem c7_backtrace_witness :
    print_backtrace (fun _ => some 1)
        (fun a => if a = 100 then some "g" else if a = 200 then some "f"
          else if a = 300 then some "main" else none)
        (fun x => if x = 8 then 200 else if x = 0 then 64 else if x = 72 then 44
          else if x = 73 then 1 else 0)
        (Regs.mk 100 0) 3 = Except.ok ["g", "f", "main"] ∧
      backtraceLoop (fun _ => (none : Option Nat)) (fun _ => (none : Option String))
        (fun _ => 0) 1 0 0 = Except.error () :=
  ⟨c7_backtrace.1 (fun _ => some 1)
      (fun a => if a = 100 then some "g" else if a = 200 then some "f"
        else if a = 300 then some "main" else none)
      (fun x => if x = 8 then 200 else if x = 0 then 64 else if x = 72 then 44
        else if x = 73 then 1 else 0)
      (Regs.mk 100 0) 3 "g" "f" 1 1 1 200 300 64 (by decide) rfl rfl (by decide)
      (by decide) (by decide) rfl rfl (by decide) (by decide) rfl rfl,
   c7_backtrace.2 (fun _ => none) (fun _ => none) (fun _ => 0) 0 0 0 (Or.inl rfl)⟩

/-- C8: `*0x1000` and `*1000` both resolve to address 4096; an unparseable
remainder after `*` is a bad breakpoint (`FalseAddr`); `42` is line number
42; `main` is a function name; and in general a leading `*` always takes the
hex path with optional `0x` prefix, while a `*`-less string is a line number
exactly when it parses as a non-negative `usize` and a function name
otherwise. -/
theorem c8_parse_address :
    parse_address ['*', '0', 'x', '1', '0', '0', '0'] = ParseAddressRes.Addr 4096 ∧
    parse_address ['*', '1', '0', '0', '0'] = ParseAddressRes.Addr 4096 ∧
    parse_address ['*', 'z', 'z'] = ParseAddressRes.FalseAddr ∧
    parse_address ['4', '2'] = ParseAddressRes.LineNumber 42 ∧
    parse_address ['m', 'a', 'i', 'n'] = ParseAddressRes.FunctionName ['m', 'a', 'i', 'n'] ∧
    (∀ rest : List Char,
      parse_address ('*' :: rest) =
        match from_str_radix 16 (match rest.map Char.toLower with
          | '0' :: 'x' :: _ => rest.drop 2
          | _ => rest) with
        | some a => ParseAddressRes.Addr a
        | none => ParseAddressRes.FalseAddr) ∧
    (∀ (cs : List Char) (n : Nat), cs.head? ≠ some '*' → from_str_radix 10 cs = some n →
      parse_address cs = ParseAddressRes.LineNumber n) ∧
    (∀ cs : List Char, cs.head? ≠ some '*' → from_str_radix 10 cs = none →
      parse_address cs = ParseAddressRes.FunctionName cs) := by
  refine ⟨by decide, by decide, by decide, by decide, by decide, fun rest => rfl, ?_, ?_⟩
  · intro cs n hh h
    cases cs with
    | nil => exact Option.noConfusion h
    | cons c rest =>
      have hc : c ≠ '*' := fun he => hh (by rw [List.head?_cons, he])
      simp only [parse_address]
      split
      · rename_i r heq
        injection heq with h1 _
        exact absurd h1 hc
      · rw [h]
  · intro cs hh h
    cases cs with
    | nil => rfl
    | cons c rest =>
      have hc : c ≠ '*' := fun he => hh (by rw [List.head?_cons, he])
      simp only [parse_address]
      split
      · rename_i r heq
        injection heq with h1 _
        exact absurd h1 hc
      · rw [h]

/-- Witness for the general clauses of C8 at concrete inputs. -/
theorem c8_parse_address_witness :
    parse_address ['7'] = ParseAddressRes.LineNumber 7 ∧
      parse_address ['q'] = ParseAddressRes.FunctionName ['q'] :=
  ⟨c8_parse_address.2.2.2.2.2.2.1 ['7'] 7 (by decide) (by decide),
   c8_parse_address.2.2.2.2.2.2.2 ['q'] (by decide) (by decide)⟩

end SmallGdb
